import Mathlib

/-!
# horsepower-mpg/script.js

A shallow embedding of the data pipeline of `src/horsepower-mpg/script.js`:
`getData` (projection and filtering of the raw car objects), `convertToTensor`
(in-place shuffle, min-max normalisation) and `testModel` (probe range,
denormalisation, point series).

Numbers.  A tensor element is a value of `F`: an exact rational, or one of the
IEEE special values `+∞`, `-∞`, `NaN`.  The arithmetic on the finite values is
exact: rounding to 32-bit floats, overflow and the sign of zero are not part of
the model.  The special values follow the IEEE rules (`0/0 = NaN`,
`x/0 = ±∞`, `∞ - ∞ = NaN`, `0 * ∞ = NaN`, every comparison with `NaN` false).

Randomness.  `tf.util.shuffle` draws from `Math.random`; the draws are an
explicit argument `rand`.
-/

namespace HorsepowerMpg

/-! ## JavaScript values and the raw car objects -/

/-- A parsed JSON value, as `response.json()` produces it. -/
inductive Json where
  | null
  | bool (b : Bool)
  | num (q : ℚ)
  | str (s : String)
  | arr (items : List Json)
  | obj (fields : List (String × Json))

/-- The result of a property read: `undefined`, or a value. -/
inductive JSVal where
  | undefined
  | val (j : Json)

/-- A raw car object: its properties, each key once, in insertion order. -/
abbrev RawCar := List (String × Json)

/-- Property read `car.key`: the value of the property, `undefined` when the
object has no such property. -/
def RawCar.get (car : RawCar) (key : String) : JSVal :=
  match car.lookup key with
  | some v => .val v
  | none => .undefined

/-- The object literal built by the `map` of `getData`: exactly the two
properties `mpg` and `horsepower`. -/
structure Car where
  mpg : JSVal
  horsepower : JSVal

/-- Loose inequality with null, `v != null`: false exactly for `null` and
`undefined`. -/
def JSVal.neNull : JSVal → Bool
  | .undefined => false
  | .val .null => false
  | .val _ => true

/-- The callback of `.map` in `getData` (script.js lines 12-15). -/
def project (car : RawCar) : Car :=
  { mpg := car.get "Miles_per_Gallon", horsepower := car.get "Horsepower" }

/-- The callback of `.filter` in `getData` (script.js line 16). -/
def keep (car : Car) : Bool :=
  car.mpg.neNull && car.horsepower.neNull

/-- The cleaning step of `getData` (script.js lines 11-18), applied to the
parsed response `carsData`. -/
def getData (carsData : List RawCar) : List Car :=
  (carsData.map project).filter keep

/-- The test that a JSON value is `null`. -/
def Json.isNull : Json → Bool
  | .null => true
  | _ => false

/-- A raw object has the property `key` and its value is not `null`. -/
def RawCar.hasNonNull (car : RawCar) (key : String) : Bool :=
  match car.lookup key with
  | some v => !v.isNull
  | none => false

/-! ## Tensor elements -/

/-- A tensor element: an exact rational or an IEEE special value. -/
inductive F where
  | fin (q : ℚ)
  | pinf
  | ninf
  | nan
  deriving DecidableEq, Repr

namespace F

/-- The test `Number.isNaN`. -/
def isNaN : F → Bool
  | nan => true
  | _ => false

/-- Negation. -/
def neg : F → F
  | fin q => fin (-q)
  | pinf => ninf
  | ninf => pinf
  | nan => nan

/-- Addition: exact on finite values, `∞ + -∞ = NaN`. -/
def add : F → F → F
  | fin a, fin b => fin (a + b)
  | fin _, pinf => pinf
  | fin _, ninf => ninf
  | pinf, fin _ => pinf
  | pinf, pinf => pinf
  | ninf, fin _ => ninf
  | ninf, ninf => ninf
  | pinf, ninf => nan
  | ninf, pinf => nan
  | nan, _ => nan
  | _, nan => nan

/-- Subtraction, `a - b = a + (-b)`. -/
def sub (a b : F) : F := add a (neg b)

/-- The infinity with the sign of `q` (zero counts as positive), `NaN` never. -/
def infOfSign (q : ℚ) : F := if 0 ≤ q then pinf else ninf

/-- Multiplication: exact on finite values, `0 * ∞ = NaN`. -/
def mul : F → F → F
  | fin a, fin b => fin (a * b)
  | fin a, pinf => if a = 0 then nan else infOfSign a
  | fin a, ninf => if a = 0 then nan else infOfSign (-a)
  | pinf, fin b => if b = 0 then nan else infOfSign b
  | ninf, fin b => if b = 0 then nan else infOfSign (-b)
  | pinf, pinf => pinf
  | ninf, ninf => pinf
  | pinf, ninf => ninf
  | ninf, pinf => ninf
  | nan, _ => nan
  | _, nan => nan

/-- Division: exact on finite values with a non-zero divisor, `0/0 = NaN`,
`x/0 = ±∞` for `x ≠ 0`, `∞/∞ = NaN`, `x/∞ = 0`. -/
def div : F → F → F
  | fin a, fin b =>
      if b = 0 then (if a = 0 then nan else infOfSign a) else fin (a / b)
  | fin _, pinf => fin 0
  | fin _, ninf => fin 0
  | pinf, fin b => infOfSign b
  | ninf, fin b => infOfSign (-b)
  | pinf, pinf => nan
  | pinf, ninf => nan
  | ninf, pinf => nan
  | ninf, ninf => nan
  | nan, _ => nan
  | _, nan => nan

/-- The comparison `a > b`; false when either side is `NaN`. -/
def gt : F → F → Bool
  | fin a, fin b => decide (b < a)
  | pinf, fin _ => true
  | pinf, ninf => true
  | fin _, ninf => true
  | _, _ => false

/-- The comparison `a < b`; false when either side is `NaN`. -/
def lt (a b : F) : Bool := gt b a

/-- Membership in the closed interval `[0, 1]`; `NaN` and the infinities are
outside. -/
def inUnit : F → Prop
  | fin q => 0 ≤ q ∧ q ≤ 1
  | _ => False

instance : Add F := ⟨add⟩
instance : Sub F := ⟨sub⟩
instance : Mul F := ⟨mul⟩
instance : Div F := ⟨div⟩

end F

/-! ## The tensor operations `convertToTensor` and `testModel` use -/

/-- The column tensor `tf.tensor2d(values, [values.length, 1])`, as the flat
list of its elements. -/
def tensor2d (values : List ℚ) : List F := values.map F.fin

/-- The reduction `t.max()` over all elements, as the reference kernel computes
it: start from the first element, replace the running maximum by every
element that is `NaN` or greater.  (For the empty tensor the first element is
missing and the stored result is `NaN`.) -/
def tensorMax (vals : List F) : F :=
  match vals with
  | [] => F.nan
  | v0 :: _ => vals.foldl (fun max value => if value.isNaN || value.gt max then value else max) v0

/-- The reduction `t.min()` over all elements, the mirror image of
`tensorMax`. -/
def tensorMin (vals : List F) : F :=
  match vals with
  | [] => F.nan
  | v0 :: _ => vals.foldl (fun min value => if value.isNaN || value.lt min then value else min) v0

/-- The call `t.sub(s)` with a scalar tensor `s` (broadcast). -/
def tsub (t : List F) (s : F) : List F := t.map (fun v => v - s)

/-- The call `t.div(s)` with a scalar tensor `s` (broadcast). -/
def tdiv (t : List F) (s : F) : List F := t.map (fun v => v / s)

/-- The call `t.mul(s)` with a scalar tensor `s` (broadcast). -/
def tmul (t : List F) (s : F) : List F := t.map (fun v => v * s)

/-- The call `t.add(s)` with a scalar tensor `s` (broadcast). -/
def tadd (t : List F) (s : F) : List F := t.map (fun v => v + s)

/-- The call `tf.linspace(start, stop, num)`: `step = (stop - start) / (num - 1)`,
the first value is `start`, every further value the previous one plus
`step`. -/
def linspace (start stop : F) (num : Nat) : List F :=
  let step := (stop - start) / F.fin ((num : ℚ) - 1)
  List.iterate (fun v => v + step) start num

/-! ## The in-place shuffle -/

/-- The helper `swap(array, left, right)` of `tf.util.shuffle`:
`temp = array[left]; array[left] = array[right]; array[right] = temp`. -/
def swap {α : Type} (array : List α) (left right : Nat) : List α :=
  match array[left]?, array[right]? with
  | some l, some r => (array.set left r).set right l
  | _, _ => array

/-- The loop of `tf.util.shuffle`: while `counter > 0`, pick
`index = (Math.random() * counter) | 0`, decrease `counter`, swap the elements
at `counter` and `index`.  The draw made while the counter is `c` is
`rand c % c`, an arbitrary index below `c`. -/
def shuffleLoop {α : Type} (rand : Nat → Nat) : Nat → List α → List α
  | 0, array => array
  | counter + 1, array =>
      let index := rand (counter + 1) % (counter + 1)
      shuffleLoop rand counter (swap array counter index)

/-- The call `tf.util.shuffle(array)`; the result is the content of the array
after the call. -/
def shuffle {α : Type} (rand : Nat → Nat) (array : List α) : List α :=
  shuffleLoop rand array.length array

/-! ## convertToTensor, testModel, run -/

/-- A cleaned record with numeric fields, as `convertToTensor` and `testModel`
read it. -/
structure Record where
  mpg : ℚ
  horsepower : ℚ
  deriving DecidableEq, Repr

/-- The object `convertToTensor` returns. -/
structure TensorData where
  inputs : List F
  labels : List F
  inputMax : F
  inputMin : F
  labelMax : F
  labelMin : F
  deriving DecidableEq, Repr

/-- The function `convertToTensor` (script.js lines 56-94).  The first
component is the content of the caller's array `data` after the call (the
shuffle works in place), the second the returned object. -/
def convertToTensor (rand : Nat → Nat) (data : List Record) : List Record × TensorData :=
  let data := shuffle rand data
  let inputs := data.map (fun d => d.horsepower)
  let labels := data.map (fun d => d.mpg)
  let inputTensor := tensor2d inputs
  let labelTensor := tensor2d labels
  let inputMax := tensorMax inputTensor
  let inputMin := tensorMin inputTensor
  let labelMax := tensorMax labelTensor
  let labelMin := tensorMin labelTensor
  let normalizedInputs := tdiv (tsub inputTensor inputMin) (inputMax - inputMin)
  let normalizedLabels := tdiv (tsub labelTensor labelMin) (labelMax - labelMin)
  (data,
   { inputs := normalizedInputs, labels := normalizedLabels,
     inputMax := inputMax, inputMin := inputMin,
     labelMax := labelMax, labelMin := labelMin })

/-- A point of a scatterplot series. -/
structure Point where
  x : F
  y : F
  deriving DecidableEq, Repr

/-- The function `testModel` (script.js lines 133-168).  `model` is the
function the network computes on one input row, so `model.predict` on the
`[100, 1]` batch is the row-wise map.  The result is the pair
`[originalPoints, predictedPoints]` handed to the scatterplot. -/
def testModel (model : F → F) (inputData : List Record) (normalizationData : TensorData) :
    List Point × List Point :=
  let inputMax := normalizationData.inputMax
  let inputMin := normalizationData.inputMin
  let labelMax := normalizationData.labelMax
  let labelMin := normalizationData.labelMin
  let xs := linspace (F.fin 0) (F.fin 1) 100
  let preds := xs.map model
  let unNormXs := tadd (tmul xs (inputMax - inputMin)) inputMin
  let unNormPreds := tadd (tmul preds (labelMax - labelMin)) labelMin
  let predictedPoints := List.zipWith (fun val p => ({ x := val, y := p } : Point)) unNormXs unNormPreds
  let originalPoints := inputData.map (fun d => ({ x := F.fin d.horsepower, y := F.fin d.mpg } : Point))
  (originalPoints, predictedPoints)

/-- The tail of `run` (script.js lines 41-47) on the array `data` that
`getData` returned: `convertToTensor(data)`, training, `testModel(model, data,
tensorData)`.  `trained` is the function the model computes after training.
The result is what `testModel` plots. -/
def run (rand : Nat → Nat) (trained : F → F) (data : List Record) : List Point × List Point :=
  let (data, tensorData) := convertToTensor rand data
  testModel trained data tensorData

/-! ## Arithmetic on finite tensor elements -/

theorem F.fin_sub_fin (a b : ℚ) : F.fin a - F.fin b = F.fin (a - b) := by
  show F.sub (F.fin a) (F.fin b) = _
  simp [F.sub, F.neg, F.add, sub_eq_add_neg]

theorem F.fin_add_fin (a b : ℚ) : F.fin a + F.fin b = F.fin (a + b) := rfl

theorem F.fin_mul_fin (a b : ℚ) : F.fin a * F.fin b = F.fin (a * b) := rfl

theorem F.fin_div_fin (a b : ℚ) (hb : b ≠ 0) : F.fin a / F.fin b = F.fin (a / b) := by
  show F.div (F.fin a) (F.fin b) = _
  simp [F.div, hb]

theorem F.zero_div_zero : F.fin 0 / F.fin 0 = F.nan := by
  show F.div (F.fin 0) (F.fin 0) = _
  simp [F.div]

theorem F.nan_mul (a : F) : F.nan * a = F.nan := by
  show F.mul F.nan a = _
  cases a <;> rfl

theorem F.nan_add (a : F) : F.nan + a = F.nan := by
  show F.add F.nan a = _
  cases a <;> rfl

/-! ## The shuffle permutes -/

theorem cons_set_perm {α : Type} (a : α) :
    ∀ (l : List α) (k : Nat) (x : α), l[k]? = some x → (x :: l.set k a).Perm (a :: l)
  | [], k, x, h => by simp at h
  | b :: t, 0, x, h => by
      simp at h
      subst h
      simpa using List.Perm.swap a b t
  | b :: t, k + 1, x, h => by
      simp at h
      have ih := cons_set_perm a t k x h
      simp only [List.set_cons_succ]
      exact (List.Perm.swap b x _).trans ((ih.cons b).trans (List.Perm.swap a b t))

theorem swap_perm {α : Type} : ∀ (l : List α) (i j : Nat), (swap l i j).Perm l
  | [], i, j => by simp [swap]
  | a :: t, 0, 0 => by simp [swap]
  | a :: t, 0, j + 1 => by
      unfold swap
      cases h : t[j]? with
      | none => simp [h]
      | some y => simpa [h] using cons_set_perm a t j y h
  | a :: t, i + 1, 0 => by
      unfold swap
      cases h : t[i]? with
      | none => simp [h]
      | some y => simpa [h] using cons_set_perm a t i y h
  | a :: t, i + 1, j + 1 => by
      have ih := swap_perm t i j
      unfold swap at ih ⊢
      cases hi : t[i]? with
      | none => simp [hi]
      | some x =>
        cases hj : t[j]? with
        | none => simp [hi, hj]
        | some y =>
          simp only [hi, hj] at ih
          simpa [hi, hj] using ih

theorem shuffleLoop_perm {α : Type} (rand : Nat → Nat) :
    ∀ (n : Nat) (l : List α), (shuffleLoop rand n l).Perm l
  | 0, l => by simp [shuffleLoop]
  | n + 1, l => by
      simp only [shuffleLoop]
      exact (shuffleLoop_perm rand n _).trans (swap_perm l _ _)

theorem shuffle_perm {α : Type} (rand : Nat → Nat) (l : List α) : (shuffle rand l).Perm l :=
  shuffleLoop_perm rand _ l

theorem shuffle_ne_nil {α : Type} (rand : Nat → Nat) {l : List α} (h : l ≠ []) :
    shuffle rand l ≠ [] := by
  intro h0
  have := (shuffle_perm rand l).length_eq
  rw [h0] at this
  exact h (List.length_eq_zero.mp this.symm)

theorem swap_map {α β : Type} (f : α → β) (l : List α) (i j : Nat) :
    swap (l.map f) i j = (swap l i j).map f := by
  unfold swap
  rw [List.getElem?_map, List.getElem?_map]
  cases l[i]? <;> cases l[j]? <;> simp [List.map_set]

theorem shuffleLoop_map {α β : Type} (rand : Nat → Nat) (f : α → β) :
    ∀ (n : Nat) (l : List α), shuffleLoop rand n (l.map f) = (shuffleLoop rand n l).map f
  | 0, l => rfl
  | n + 1, l => by
      simp only [shuffleLoop]
      rw [swap_map, shuffleLoop_map rand f n]

theorem shuffle_map {α β : Type} (rand : Nat → Nat) (f : α → β) (l : List α) :
    shuffle rand (l.map f) = (shuffle rand l).map f := by
  unfold shuffle
  rw [List.length_map, shuffleLoop_map]

/-! ## The reductions on finite data -/

theorem maxStep_fin (a q : ℚ) :
    (if (F.fin q).isNaN || (F.fin q).gt (F.fin a) then F.fin q else F.fin a) =
      F.fin (max a q) := by
  simp only [F.isNaN, F.gt, Bool.false_or, decide_eq_true_eq]
  by_cases h : a < q
  · rw [if_pos h, max_eq_right h.le]
  · rw [if_neg h, max_eq_left (not_lt.mp h)]

theorem minStep_fin (a q : ℚ) :
    (if (F.fin q).isNaN || (F.fin q).lt (F.fin a) then F.fin q else F.fin a) =
      F.fin (min a q) := by
  simp only [F.isNaN, F.lt, F.gt, Bool.false_or, decide_eq_true_eq]
  by_cases h : q < a
  · rw [if_pos h, min_eq_right h.le]
  · rw [if_neg h, min_eq_left (not_lt.mp h)]

theorem foldl_max_fin (qs : List ℚ) : ∀ a : ℚ,
    (qs.map F.fin).foldl (fun max value => if value.isNaN || value.gt max then value else max)
      (F.fin a) = F.fin (qs.foldl max a) := by
  induction qs with
  | nil => intro a; rfl
  | cons q t ih =>
    intro a
    show List.foldl _ (if (F.fin q).isNaN || (F.fin q).gt (F.fin a) then F.fin q else F.fin a)
      (t.map F.fin) = _
    rw [maxStep_fin]
    exact ih _

theorem foldl_min_fin (qs : List ℚ) : ∀ a : ℚ,
    (qs.map F.fin).foldl (fun min value => if value.isNaN || value.lt min then value else min)
      (F.fin a) = F.fin (qs.foldl min a) := by
  induction qs with
  | nil => intro a; rfl
  | cons q t ih =>
    intro a
    show List.foldl _ (if (F.fin q).isNaN || (F.fin q).lt (F.fin a) then F.fin q else F.fin a)
      (t.map F.fin) = _
    rw [minStep_fin]
    exact ih _

theorem foldl_max_spec (qs : List ℚ) : ∀ a : ℚ,
    (qs.foldl max a = a ∨ qs.foldl max a ∈ qs) ∧ a ≤ qs.foldl max a ∧
      ∀ q ∈ qs, q ≤ qs.foldl max a := by
  induction qs with
  | nil => intro a; simp
  | cons q t ih =>
    intro a
    obtain ⟨h1, h2, h3⟩ := ih (max a q)
    simp only [List.foldl_cons, List.mem_cons]
    refine ⟨?_, le_trans (le_max_left a q) h2, ?_⟩
    · rcases h1 with h1 | h1
      · rcases max_choice a q with hm | hm
        · left; rw [h1, hm]
        · right; left; rw [h1, hm]
      · right; right; exact h1
    · intro x hx
      rcases hx with hx | hx
      · subst hx; exact le_trans (le_max_right a x) h2
      · exact h3 x hx

theorem foldl_min_spec (qs : List ℚ) : ∀ a : ℚ,
    (qs.foldl min a = a ∨ qs.foldl min a ∈ qs) ∧ qs.foldl min a ≤ a ∧
      ∀ q ∈ qs, qs.foldl min a ≤ q := by
  induction qs with
  | nil => intro a; simp
  | cons q t ih =>
    intro a
    obtain ⟨h1, h2, h3⟩ := ih (min a q)
    simp only [List.foldl_cons, List.mem_cons]
    refine ⟨?_, le_trans h2 (min_le_left a q), ?_⟩
    · rcases h1 with h1 | h1
      · rcases min_choice a q with hm | hm
        · left; rw [h1, hm]
        · right; left; rw [h1, hm]
      · right; right; exact h1
    · intro x hx
      rcases hx with hx | hx
      · subst hx; exact le_trans h2 (min_le_right a x)
      · exact h3 x hx

/-- On a non-empty tensor of finite values `max()` is the greatest element. -/
theorem tensorMax_spec (qs : List ℚ) (h : qs ≠ []) :
    ∃ m, m ∈ qs ∧ tensorMax (tensor2d qs) = F.fin m ∧ ∀ q ∈ qs, q ≤ m := by
  cases qs with
  | nil => exact absurd rfl h
  | cons a t =>
    refine ⟨(a :: t).foldl max a, ?_, ?_, ?_⟩
    · rcases (foldl_max_spec (a :: t) a).1 with h1 | h1
      · rw [h1]; exact List.mem_cons_self a t
      · exact h1
    · exact foldl_max_fin (a :: t) a
    · exact (foldl_max_spec (a :: t) a).2.2

/-- On a non-empty tensor of finite values `min()` is the least element. -/
theorem tensorMin_spec (qs : List ℚ) (h : qs ≠ []) :
    ∃ m, m ∈ qs ∧ tensorMin (tensor2d qs) = F.fin m ∧ ∀ q ∈ qs, m ≤ q := by
  cases qs with
  | nil => exact absurd rfl h
  | cons a t =>
    refine ⟨(a :: t).foldl min a, ?_, ?_, ?_⟩
    · rcases (foldl_min_spec (a :: t) a).1 with h1 | h1
      · rw [h1]; exact List.mem_cons_self a t
      · exact h1
    · exact foldl_min_fin (a :: t) a
    · exact (foldl_min_spec (a :: t) a).2.2

/-! ## getData -/

theorem keep_project (car : RawCar) :
    keep (project car) = (car.hasNonNull "Miles_per_Gallon" && car.hasNonNull "Horsepower") := by
  have key : ∀ k : String, (car.get k).neNull = car.hasNonNull k := by
    intro k
    unfold RawCar.get RawCar.hasNonNull
    cases car.lookup k with
    | none => rfl
    | some v => cases v <;> rfl
  simp [keep, project, key]

/-- C7.  The filter of `getData` is idempotent: applied to a sequence that is
already its own output, in particular to what `getData` returned, it gives the
same sequence back. -/
theorem filter_keep_idempotent (cars : List Car) (carsData : List RawCar) :
    (cars.filter keep).filter keep = cars.filter keep ∧
    (getData carsData).filter keep = getData carsData := by
  constructor
  · simp [List.filter_filter]
  · simp [getData, List.filter_filter]

/-! ## convertToTensor: shape of the result -/

theorem tensorMax_perm {l l' : List ℚ} (h : l.Perm l') :
    tensorMax (tensor2d l) = tensorMax (tensor2d l') := by
  by_cases hl : l = []
  · subst hl
    rw [List.nil_perm.mp h]
  · have hl' : l' ≠ [] := fun h0 => hl (by subst h0; exact List.perm_nil.mp h)
    obtain ⟨m, hm, e, hb⟩ := tensorMax_spec l hl
    obtain ⟨m', hm', e', hb'⟩ := tensorMax_spec l' hl'
    rw [e, e']
    exact congrArg F.fin (le_antisymm (hb' m (h.mem_iff.mp hm)) (hb m' (h.mem_iff.mpr hm')))

theorem tensorMin_perm {l l' : List ℚ} (h : l.Perm l') :
    tensorMin (tensor2d l) = tensorMin (tensor2d l') := by
  by_cases hl : l = []
  · subst hl
    rw [List.nil_perm.mp h]
  · have hl' : l' ≠ [] := fun h0 => hl (by subst h0; exact List.perm_nil.mp h)
    obtain ⟨m, hm, e, hb⟩ := tensorMin_spec l hl
    obtain ⟨m', hm', e', hb'⟩ := tensorMin_spec l' hl'
    rw [e, e']
    exact congrArg F.fin (le_antisymm (hb m' (h.mem_iff.mpr hm')) (hb' m (h.mem_iff.mp hm)))

theorem convertToTensor_inputs (rand : Nat → Nat) (data : List Record) :
    (convertToTensor rand data).2.inputs =
      (shuffle rand data).map (fun d =>
        (F.fin d.horsepower - (convertToTensor rand data).2.inputMin) /
          ((convertToTensor rand data).2.inputMax - (convertToTensor rand data).2.inputMin)) := by
  simp [convertToTensor, tdiv, tsub, tensor2d, List.map_map]

theorem convertToTensor_labels (rand : Nat → Nat) (data : List Record) :
    (convertToTensor rand data).2.labels =
      (shuffle rand data).map (fun d =>
        (F.fin d.mpg - (convertToTensor rand data).2.labelMin) /
          ((convertToTensor rand data).2.labelMax - (convertToTensor rand data).2.labelMin)) := by
  simp [convertToTensor, tdiv, tsub, tensor2d, List.map_map]

/-- C5, on the code.  `convertToTensor` applied to the empty array returns an
object whose `inputs` and `labels` have length zero. -/
theorem convertToTensor_empty_returns :
    (convertToTensor (fun _ => 0) []).2.inputs.length = 0 ∧
    (convertToTensor (fun _ => 0) []).2.labels.length = 0 := by
  constructor <;> rfl

/-- C5 (amended).  `convertToTensor` applied to the empty record sequence does
not fail: whatever the random draws, it returns an object whose `inputs` and
`labels` are empty, and the array stays empty. -/
theorem convertToTensor_nil (rand : Nat → Nat) :
    (convertToTensor rand []).1 = [] ∧
    (convertToTensor rand []).2.inputs = [] ∧
    (convertToTensor rand []).2.labels = [] := by
  refine ⟨rfl, rfl, rfl⟩

/-- C9, on the code.  With two records and the draws all `0` the caller's
array holds the records in the opposite order after `convertToTensor`. -/
theorem convertToTensor_mutates :
    (convertToTensor (fun _ => 0)
        [{ mpg := 18, horsepower := 130 }, { mpg := 30, horsepower := 90 }]).1 =
      [{ mpg := 30, horsepower := 90 }, { mpg := 18, horsepower := 130 }] ∧
    (convertToTensor (fun _ => 0)
        [{ mpg := 18, horsepower := 130 }, { mpg := 30, horsepower := 90 }]).1 ≠
      [{ mpg := 18, horsepower := 130 }, { mpg := 30, horsepower := 90 }] := by
  have h : (convertToTensor (fun _ => 0)
        [{ mpg := 18, horsepower := 130 }, { mpg := 30, horsepower := 90 }]).1 =
      [{ mpg := 30, horsepower := 90 }, { mpg := 18, horsepower := 130 }] := by
    simp [convertToTensor, shuffle, shuffleLoop, swap]
  refine ⟨h, ?_⟩
  rw [h]
  simp

/-- C9 (amended).  `convertToTensor` shuffles the caller's array in place:
after the call the array holds the same records, each as often as before, in
the order the shuffle produced (a permutation of the order before), and that
shuffled array is the one `run` passes to `testModel`, whose original points
are its records in that order. -/
theorem convertToTensor_permutes (rand : Nat → Nat) (trained : F → F) (data : List Record) :
    (convertToTensor rand data).1 = shuffle rand data ∧
    ((convertToTensor rand data).1).Perm data ∧
    (run rand trained data).1 =
      ((convertToTensor rand data).1).map
        (fun d => ({ x := F.fin d.horsepower, y := F.fin d.mpg } : Point)) :=
  ⟨rfl, shuffle_perm rand data, rfl⟩

/-- C10.  Whatever permutation the shuffle applies, the result of
`convertToTensor` is the rearranged normalisation: the four bounds are those
of the unshuffled data, `inputs` and `labels` have as many elements as there
are records, position by position `inputs` and `labels` are the normalised
horsepower and the normalised mpg of the record the shuffle put there, and
`inputs` and `labels` are the shuffle of the normalised columns of the
unshuffled data. -/
theorem convertToTensor_shuffle_invariant (rand : Nat → Nat) (data : List Record) :
    ((convertToTensor rand data).1).Perm data ∧
    (convertToTensor rand data).2.inputMax = tensorMax (tensor2d (data.map (fun d => d.horsepower))) ∧
    (convertToTensor rand data).2.inputMin = tensorMin (tensor2d (data.map (fun d => d.horsepower))) ∧
    (convertToTensor rand data).2.labelMax = tensorMax (tensor2d (data.map (fun d => d.mpg))) ∧
    (convertToTensor rand data).2.labelMin = tensorMin (tensor2d (data.map (fun d => d.mpg))) ∧
    (convertToTensor rand data).2.inputs.length = data.length ∧
    (convertToTensor rand data).2.labels.length = data.length ∧
    (convertToTensor rand data).2.inputs =
      ((convertToTensor rand data).1).map (fun d =>
        (F.fin d.horsepower - (convertToTensor rand data).2.inputMin) /
          ((convertToTensor rand data).2.inputMax - (convertToTensor rand data).2.inputMin)) ∧
    (convertToTensor rand data).2.labels =
      ((convertToTensor rand data).1).map (fun d =>
        (F.fin d.mpg - (convertToTensor rand data).2.labelMin) /
          ((convertToTensor rand data).2.labelMax - (convertToTensor rand data).2.labelMin)) ∧
    (convertToTensor rand data).2.inputs =
      shuffle rand (data.map (fun d =>
        (F.fin d.horsepower - tensorMin (tensor2d (data.map (fun d => d.horsepower)))) /
          (tensorMax (tensor2d (data.map (fun d => d.horsepower))) -
            tensorMin (tensor2d (data.map (fun d => d.horsepower)))))) ∧
    (convertToTensor rand data).2.labels =
      shuffle rand (data.map (fun d =>
        (F.fin d.mpg - tensorMin (tensor2d (data.map (fun d => d.mpg)))) /
          (tensorMax (tensor2d (data.map (fun d => d.mpg))) -
            tensorMin (tensor2d (data.map (fun d => d.mpg)))))) := by
  have hp := shuffle_perm rand data
  have e1 : (convertToTensor rand data).2.inputMax =
      tensorMax (tensor2d (data.map (fun d => d.horsepower))) := tensorMax_perm (hp.map _)
  have e2 : (convertToTensor rand data).2.inputMin =
      tensorMin (tensor2d (data.map (fun d => d.horsepower))) := tensorMin_perm (hp.map _)
  have e3 : (convertToTensor rand data).2.labelMax =
      tensorMax (tensor2d (data.map (fun d => d.mpg))) := tensorMax_perm (hp.map _)
  have e4 : (convertToTensor rand data).2.labelMin =
      tensorMin (tensor2d (data.map (fun d => d.mpg))) := tensorMin_perm (hp.map _)
  refine ⟨hp, e1, e2, e3, e4, ?_, ?_, convertToTensor_inputs rand data,
    convertToTensor_labels rand data, ?_, ?_⟩
  · rw [convertToTensor_inputs, List.length_map, hp.length_eq]
  · rw [convertToTensor_labels, List.length_map, hp.length_eq]
  · rw [shuffle_map, convertToTensor_inputs, e1, e2]
  · rw [shuffle_map, convertToTensor_labels, e3, e4]

/-! ## convertToTensor: the bounds and the normalised values -/

/-- A column with two different values: the bounds are finite and apart. -/
theorem column_nonconst (qs : List ℚ) (h : ∃ a ∈ qs, ∃ b ∈ qs, a ≠ b) :
    ∃ mn mx : ℚ, tensorMin (tensor2d qs) = F.fin mn ∧ tensorMax (tensor2d qs) = F.fin mx ∧
      mn < mx ∧ ∀ q ∈ qs, mn ≤ q ∧ q ≤ mx := by
  obtain ⟨a, ha, b, hb, hab⟩ := h
  have hne : qs ≠ [] := List.ne_nil_of_mem ha
  obtain ⟨mn, _, emn, hmn⟩ := tensorMin_spec qs hne
  obtain ⟨mx, _, emx, hmx⟩ := tensorMax_spec qs hne
  refine ⟨mn, mx, emn, emx, ?_, fun q hq => ⟨hmn q hq, hmx q hq⟩⟩
  rcases lt_or_gt_of_ne hab with hlt | hlt
  · exact lt_of_le_of_lt (hmn a ha) (lt_of_lt_of_le hlt (hmx b hb))
  · exact lt_of_le_of_lt (hmn b hb) (lt_of_lt_of_le hlt (hmx a ha))

/-- A non-empty column with a single value: both bounds are that value. -/
theorem column_const (qs : List ℚ) (hne : qs ≠ []) (h : ∀ a ∈ qs, ∀ b ∈ qs, a = b) :
    ∃ m : ℚ, tensorMin (tensor2d qs) = F.fin m ∧ tensorMax (tensor2d qs) = F.fin m ∧
      ∀ q ∈ qs, q = m := by
  obtain ⟨mn, hmn, emn, _⟩ := tensorMin_spec qs hne
  obtain ⟨mx, hmx, emx, _⟩ := tensorMax_spec qs hne
  refine ⟨mn, emn, ?_, fun q hq => h q hq mn hmn⟩
  rw [emx, h mx hmx mn hmn]

theorem mem_shuffle_map {rand : Nat → Nat} {data : List Record} (f : Record → ℚ) {q : ℚ} :
    q ∈ (shuffle rand data).map f ↔ q ∈ data.map f :=
  ((shuffle_perm rand data).map f).mem_iff

/-- The normalisation and its inverse on a column with two different values:
every normalised value is a number of `[0, 1]`, and denormalising it gives the
original value back. -/
theorem column_normalize (qs : List ℚ) (h : ∃ a ∈ qs, ∃ b ∈ qs, a ≠ b) (q : ℚ) (hq : q ∈ qs) :
    ((F.fin q - tensorMin (tensor2d qs)) /
        (tensorMax (tensor2d qs) - tensorMin (tensor2d qs))).inUnit ∧
    ((F.fin q - tensorMin (tensor2d qs)) /
        (tensorMax (tensor2d qs) - tensorMin (tensor2d qs))) *
      (tensorMax (tensor2d qs) - tensorMin (tensor2d qs)) + tensorMin (tensor2d qs) = F.fin q := by
  obtain ⟨mn, mx, emn, emx, hlt, hb⟩ := column_nonconst qs h
  have hpos : 0 < mx - mn := sub_pos.mpr hlt
  rw [emn, emx, F.fin_sub_fin, F.fin_sub_fin, F.fin_div_fin _ _ hpos.ne', F.fin_mul_fin,
    F.fin_add_fin]
  refine ⟨⟨div_nonneg (sub_nonneg.mpr (hb q hq).1) hpos.le, ?_⟩, ?_⟩
  · rw [div_le_one hpos]
    linarith [(hb q hq).2]
  · rw [div_mul_cancel₀ _ hpos.ne']
    congr 1
    ring

/-- The normalisation on a non-empty column with a single value: `0/0`. -/
theorem column_degenerate (qs : List ℚ) (hne : qs ≠ []) (h : ∀ a ∈ qs, ∀ b ∈ qs, a = b)
    (q : ℚ) (hq : q ∈ qs) :
    (F.fin q - tensorMin (tensor2d qs)) /
        (tensorMax (tensor2d qs) - tensorMin (tensor2d qs)) = F.nan := by
  obtain ⟨m, emn, emx, hc⟩ := column_const qs hne h
  rw [emn, emx, hc q hq, F.fin_sub_fin, sub_self, F.zero_div_zero]

theorem column_cases (qs : List ℚ) :
    (∃ a ∈ qs, ∃ b ∈ qs, a ≠ b) ∨ (∀ a ∈ qs, ∀ b ∈ qs, a = b) := by
  by_cases h : ∃ a ∈ qs, ∃ b ∈ qs, a ≠ b
  · exact Or.inl h
  · right
    intro a ha b hb
    by_contra hab
    exact h ⟨a, ha, b, hb, hab⟩

theorem nonconst_shuffle_iff (rand : Nat → Nat) (data : List Record) (f : Record → ℚ) :
    (∃ a ∈ (shuffle rand data).map f, ∃ b ∈ (shuffle rand data).map f, a ≠ b) ↔
      ∃ r ∈ data, ∃ s ∈ data, f r ≠ f s := by
  have hm : ∀ r, r ∈ shuffle rand data ↔ r ∈ data := fun r => (shuffle_perm rand data).mem_iff
  simp only [List.mem_map, hm]
  constructor
  · rintro ⟨a, ⟨r, hr, rfl⟩, b, ⟨s, hs, rfl⟩, hab⟩
    exact ⟨r, hr, s, hs, hab⟩
  · rintro ⟨r, hr, s, hs, hab⟩
    exact ⟨f r, ⟨r, hr, rfl⟩, f s, ⟨s, hs, rfl⟩, hab⟩

/-- One column of `convertToTensor`, normalised as lines 77-82 do: all values
lie in `[0, 1]` exactly when the column has two different values. -/
theorem column_inUnit_iff (qs : List ℚ) (hne : qs ≠ []) :
    (∀ x ∈ tdiv (tsub (tensor2d qs) (tensorMin (tensor2d qs)))
        (tensorMax (tensor2d qs) - tensorMin (tensor2d qs)), x.inUnit) ↔
      ∃ a ∈ qs, ∃ b ∈ qs, a ≠ b := by
  simp only [tdiv, tsub, tensor2d, List.map_map, List.mem_map, Function.comp]
  constructor
  · intro hall
    rcases column_cases qs with h | h
    · exact h
    · exfalso
      obtain ⟨q, hq⟩ := List.exists_mem_of_ne_nil qs hne
      have hx := hall _ ⟨q, hq, rfl⟩
      have hnan := column_degenerate qs hne h q hq
      simp only [tensor2d] at hnan
      rw [hnan] at hx
      exact hx
  · rintro h x ⟨q, hq, rfl⟩
    have := (column_normalize qs h q hq).1
    simpa only [tensor2d] using this

/-- One column of `convertToTensor`, normalised as lines 77-82 do and
denormalised as `testModel` does: the original column comes back exactly when
the column has two different values. -/
theorem column_roundtrip_iff (qs : List ℚ) (hne : qs ≠ []) :
    tadd (tmul (tdiv (tsub (tensor2d qs) (tensorMin (tensor2d qs)))
        (tensorMax (tensor2d qs) - tensorMin (tensor2d qs)))
        (tensorMax (tensor2d qs) - tensorMin (tensor2d qs))) (tensorMin (tensor2d qs)) =
      tensor2d qs ↔ ∃ a ∈ qs, ∃ b ∈ qs, a ≠ b := by
  constructor
  · intro hall
    rcases column_cases qs with h | h
    · exact h
    · exfalso
      obtain ⟨q, t, rfl⟩ := List.exists_cons_of_ne_nil hne
      have hnan := column_degenerate (q :: t) hne h q (List.mem_cons_self q t)
      have hhead := congrArg List.head? hall
      simp only [tadd, tmul, tdiv, tsub, tensor2d, List.map_cons, List.head?_cons] at hhead hnan
      rw [hnan, F.nan_mul, F.nan_add] at hhead
      exact absurd (Option.some.inj hhead) (by simp)
  · intro h
    simp only [tadd, tmul, tdiv, tsub, tensor2d, List.map_map]
    apply List.map_congr_left
    intro q hq
    have := (column_normalize qs h q hq).2
    simpa only [tensor2d, Function.comp] using this

/-- The result of `convertToTensor` on a single record: both normalised
vectors hold one `NaN`. -/
theorem convertToTensor_single (rand : Nat → Nat) (r : Record) :
    (convertToTensor rand [r]).2.inputs = [F.nan] ∧
    (convertToTensor rand [r]).2.labels = [F.nan] ∧
    (convertToTensor rand [r]).2.inputMin = F.fin r.horsepower ∧
    (convertToTensor rand [r]).2.inputMax = F.fin r.horsepower ∧
    (convertToTensor rand [r]).1 = [r] := by
  have hs : shuffle rand [r] = [r] := by
    simp [shuffle, shuffleLoop, swap, Nat.mod_one]
  simp [convertToTensor, hs, tensor2d, tensorMax, tensorMin, tsub, tdiv, F.isNaN, F.gt, F.lt,
    F.fin_sub_fin, F.zero_div_zero]

/-- With a single horsepower value in a non-empty data set, every normalised
input is `NaN` and the two input bounds coincide. -/
theorem degenerate_inputs (rand : Nat → Nat) (data : List Record) (h : data ≠ [])
    (hc : ∀ r ∈ data, ∀ s ∈ data, r.horsepower = s.horsepower) :
    (convertToTensor rand data).2.inputMax = (convertToTensor rand data).2.inputMin ∧
    ∀ x ∈ (convertToTensor rand data).2.inputs, x = F.nan := by
  have hs := shuffle_ne_nil rand h
  have hne : (shuffle rand data).map (fun d => d.horsepower) ≠ [] := by simpa using hs
  have hm : ∀ r, r ∈ shuffle rand data ↔ r ∈ data := fun r => (shuffle_perm rand data).mem_iff
  have hconst : ∀ a ∈ (shuffle rand data).map (fun d => d.horsepower),
      ∀ b ∈ (shuffle rand data).map (fun d => d.horsepower), a = b := by
    simp only [List.mem_map, hm]
    rintro a ⟨r, hr, rfl⟩ b ⟨s, hs', rfl⟩
    exact hc r hr s hs'
  constructor
  · obtain ⟨m, emn, emx, _⟩ := column_const _ hne hconst
    show tensorMax (tensor2d ((shuffle rand data).map (fun d => d.horsepower))) =
      tensorMin (tensor2d ((shuffle rand data).map (fun d => d.horsepower)))
    rw [emn, emx]
  · intro x hx
    rw [convertToTensor_inputs, List.mem_map] at hx
    obtain ⟨d, hd, rfl⟩ := hx
    exact column_degenerate _ hne hconst d.horsepower (List.mem_map_of_mem _ hd)

/-- C4, on the code.  For `[{horsepower:130, mpg:18}, {horsepower:130, mpg:30}]`,
where every horsepower is `130`, the normalised inputs are `[NaN, NaN]`, not
zeros. -/
theorem degenerate_inputs_not_zero :
    (convertToTensor (fun _ => 0)
        [{ mpg := 18, horsepower := 130 }, { mpg := 30, horsepower := 130 }]).2.inputs =
      [F.nan, F.nan] ∧
    ¬ (∀ x ∈ (convertToTensor (fun _ => 0)
        [{ mpg := 18, horsepower := 130 }, { mpg := 30, horsepower := 130 }]).2.inputs,
      x = F.fin 0) := by
  have hs : shuffle (fun _ => 0)
      ([{ mpg := 18, horsepower := 130 }, { mpg := 30, horsepower := 130 }] : List Record) =
      [{ mpg := 30, horsepower := 130 }, { mpg := 18, horsepower := 130 }] := by
    simp [shuffle, shuffleLoop, swap]
  have h : (convertToTensor (fun _ => 0)
        [{ mpg := 18, horsepower := 130 }, { mpg := 30, horsepower := 130 }]).2.inputs =
      [F.nan, F.nan] := by
    simp [convertToTensor, hs, tensor2d, tensorMax, tensorMin, tsub, tdiv, F.isNaN, F.gt, F.lt,
      F.fin_sub_fin, F.zero_div_zero]
  refine ⟨h, ?_⟩
  rw [h]
  intro hall
  exact absurd (hall F.nan (List.mem_cons_self _ _)) (by simp)

/-- C4 (amended).  For every non-empty sequence of records in which every
horsepower value is identical, `inputMax = inputMin` and `convertToTensor`
returns a normalised inputs vector, one element per record, whose every
element is `NaN` (the quotient `0/0`). -/
theorem convertToTensor_degenerate (rand : Nat → Nat) (data : List Record) (h : data ≠ [])
    (hc : ∀ r ∈ data, ∀ s ∈ data, r.horsepower = s.horsepower) :
    (convertToTensor rand data).2.inputMax = (convertToTensor rand data).2.inputMin ∧
    (convertToTensor rand data).2.inputs.length = data.length ∧
    ∀ x ∈ (convertToTensor rand data).2.inputs, x = F.nan := by
  refine ⟨(degenerate_inputs rand data h hc).1, ?_, (degenerate_inputs rand data h hc).2⟩
  rw [convertToTensor_inputs, List.length_map, (shuffle_perm rand data).length_eq]

/-- C4 (amended), at a concrete input: two records with the horsepower
`130`. -/
theorem convertToTensor_degenerate_witness :
    ([{ mpg := 18, horsepower := 130 }, { mpg := 30, horsepower := 130 }] : List Record) ≠ [] ∧
    (∀ r ∈ ([{ mpg := 18, horsepower := 130 }, { mpg := 30, horsepower := 130 }] : List Record),
      ∀ s ∈ ([{ mpg := 18, horsepower := 130 }, { mpg := 30, horsepower := 130 }] : List Record),
        r.horsepower = s.horsepower) ∧
    ((convertToTensor (fun _ => 0)
        [{ mpg := 18, horsepower := 130 }, { mpg := 30, horsepower := 130 }]).2.inputMax =
      (convertToTensor (fun _ => 0)
        [{ mpg := 18, horsepower := 130 }, { mpg := 30, horsepower := 130 }]).2.inputMin ∧
     (convertToTensor (fun _ => 0)
        [{ mpg := 18, horsepower := 130 }, { mpg := 30, horsepower := 130 }]).2.inputs.length =
      ([{ mpg := 18, horsepower := 130 }, { mpg := 30, horsepower := 130 }] : List Record).length ∧
     ∀ x ∈ (convertToTensor (fun _ => 0)
        [{ mpg := 18, horsepower := 130 }, { mpg := 30, horsepower := 130 }]).2.inputs,
      x = F.nan) :=
  ⟨List.cons_ne_nil _ _, by simp,
   convertToTensor_degenerate (fun _ => 0) _ (List.cons_ne_nil _ _) (by simp)⟩

/-! ## testModel -/

theorem iterate_add_fin (s : ℚ) (i : Nat) :
    (fun v : F => v + F.fin s)^[i] (F.fin 0) = F.fin (i * s) := by
  induction i with
  | zero => simp
  | succ n ih =>
    rw [Function.iterate_succ_apply', ih, F.fin_add_fin]
    congr 1
    push_cast
    ring

/-- The probes of `testModel`: the `i`-th of the 100 values is `i/99`. -/
theorem linspace_unit :
    linspace (F.fin 0) (F.fin 1) 100 = (List.range 100).map (fun i : Nat => F.fin ((i : ℚ) / 99)) := by
  unfold linspace
  rw [F.fin_sub_fin, F.fin_div_fin _ _ (by norm_num), ← List.range_map_iterate]
  apply List.map_congr_left
  intro i _
  rw [iterate_add_fin]
  congr 1
  norm_num
  ring

theorem testModel_predicted (model : F → F) (inputData : List Record) (nd : TensorData) :
    (testModel model inputData nd).2 =
      (List.range 100).map (fun i : Nat =>
        ({ x := F.fin ((i : ℚ) / 99) * (nd.inputMax - nd.inputMin) + nd.inputMin,
           y := model (F.fin ((i : ℚ) / 99)) * (nd.labelMax - nd.labelMin) + nd.labelMin } :
          Point)) := by
  simp only [testModel, linspace_unit, tadd, tmul, List.map_map, List.zipWith_map,
    List.zipWith_same, Function.comp]

end HorsepowerMpg
